import Mathlib

/-!
Verification of the claims validation engine of the jwtauth plugin
(claims.go and the google directory helper), as a shallow embedding.

Claim trees decoded from JSON are modelled by the inductive `GoValue`
(Go `interface{}` holding `nil`, `bool`, `float64`, `json.Number`, `string`,
`[]interface{}` or `map[string]interface{}`). Go maps with string keys are
modelled as association lists with unique keys; reads take the first match
and writes replace in place, which matches map semantics on any list whose
keys are unique (Go maps guarantee that).
-/

namespace JwtAuth

/-- Claim value universe: the dynamic types a JSON-decoded `interface{}`
can hold in this code base. Numbers decoded by go-oidc are `float64`
(constructor `vfloat`, the payload abstracted by its bit pattern, which
decides equality of JSON-decoded floats), while numbers from the role
configuration are `json.Number` (constructor `vjsonnum`, a string). The
two are distinct dynamic types, so Go equality never coerces between
them, exactly as the comment in getClaim of claims.go records. -/
inductive GoValue where
  | vnull
  | vbool (b : Bool)
  | vfloat (bits : Int)
  | vjsonnum (s : String)
  | vstr (s : String)
  | vlist (xs : List GoValue)
  | vmap (kvs : List (String × GoValue))

/-- Go interface equality `x == y` for `GoValue`. It is partial: comparing
two values of the same dynamic type that is not comparable (`[]interface{}`
or `map[string]interface{}`) is a runtime panic in Go, modelled by `none`.
Different dynamic types compare unequal without panicking. -/
def goEq : GoValue → GoValue → Option Bool
  | .vnull, .vnull => some true
  | .vbool a, .vbool b => some (a = b)
  | .vfloat a, .vfloat b => some (a = b)
  | .vjsonnum a, .vjsonnum b => some (a = b)
  | .vstr a, .vstr b => some (a = b)
  | .vlist _, .vlist _ => none
  | .vmap _, .vmap _ => none
  | _, _ => some false

/-- Test for the Go nil interface. -/
def isNull : GoValue → Bool
  | .vnull => true
  | _ => false

/-- Association list read, modelling a Go map read (`m[k]`): `none` models
the missing key, for which Go yields the zero value. -/
def assocGet {β : Type} : List (String × β) → String → Option β
  | [], _ => none
  | (k0, v0) :: rest, k => if k0 = k then some v0 else assocGet rest k

/-- Association list write, modelling a Go map write (`m[k] = v`): replaces
the binding in place when the key is present, appends it otherwise. -/
def assocSet {β : Type} : List (String × β) → String → β → List (String × β)
  | [], k, v => [(k, v)]
  | (k0, v0) :: rest, k, v =>
    if k0 = k then (k, v) :: rest else (k0, v0) :: assocSet rest k v

/-- Predicate for a claim string that names a JSONPointer, as tested by
`strings.HasPrefix(claim, "/")` in getClaim. -/
def hasSlashPrefix (s : String) : Bool :=
  match s.data with
  | '/' :: _ => true
  | _ => false

/-- Splitting a character list on the slash separator, as
`strings.Split(s, "/")` does (an empty input yields one empty part). -/
def splitSlash : List Char → List (List Char)
  | [] => [[]]
  | '/' :: rest => [] :: splitSlash rest
  | c :: rest =>
    match splitSlash rest with
    | [] => [[c]]
    | p :: ps => (c :: p) :: ps

/-- JSONPointer part unescaping of the pointerstructure library: the
sequence `~1` becomes a slash and `~0` becomes a tilde (a left-to-right
single pass, equal to the two sequential strings.Replace calls because
neither replacement can create or consume an occurrence of the other). -/
def unescapeChars : List Char → List Char
  | '~' :: '1' :: rest => '/' :: unescapeChars rest
  | '~' :: '0' :: rest => '~' :: unescapeChars rest
  | c :: rest => c :: unescapeChars rest
  | [] => []

/-- Decimal digit parsing for `strconv.ParseInt` modelling: all characters
must be digits and at least one must be present. -/
def digitsToNatAux : List Char → Nat → Option Nat
  | [], acc => some acc
  | c :: rest, acc =>
    if c.isDigit then digitsToNatAux rest (10 * acc + (c.toNat - '0'.toNat))
    else none

/-- Parse of a nonempty all-digit character list to a natural number. -/
def digitsToNat (cs : List Char) : Option Nat :=
  match cs with
  | [] => none
  | _ :: _ => digitsToNatAux cs 0

/-- Array index parsing of the pointerstructure library
(`strconv.ParseInt(part, 10, 64)`): an optional sign, then decimal digits,
failing outside the signed 64-bit range. -/
def parseArrayIndex (cs : List Char) : Option Int :=
  match cs with
  | '-' :: rest =>
    (digitsToNat rest).bind fun n =>
      if (n : Int) ≤ 2 ^ 63 then some (-(n : Int)) else none
  | '+' :: rest =>
    (digitsToNat rest).bind fun n =>
      if (n : Int) < 2 ^ 63 then some (n : Int) else none
  | _ =>
    (digitsToNat cs).bind fun n =>
      if (n : Int) < 2 ^ 63 then some (n : Int) else none

/-- JSONPointer traversal of `pointerstructure.Get` over the claim tree:
a map step looks the part up by key; a list step parses the part as a
64-bit integer and requires it in bounds; any other value with parts left,
a missing key, a malformed index or an out-of-range index is an error,
modelled by `none`. -/
def pointerGet : GoValue → List String → Option GoValue
  | v, [] => some v
  | .vmap kvs, p :: rest =>
    match assocGet kvs p with
    | none => none
    | some v => pointerGet v rest
  | .vlist xs, p :: rest =>
    match parseArrayIndex p.data with
    | none => none
    | some i =>
      if 0 ≤ i then
        match xs.get? i.toNat with
        | none => none
        | some v => pointerGet v rest
      else none
  | _, _ :: _ => none

/-- Pointer parts of a claim string that starts with a slash: the text
after the leading slash, split on slashes, each part unescaped. -/
def claimPathParts (claim : String) : List String :=
  (splitSlash claim.data.tail).map fun p => String.mk (unescapeChars p)

/-- Embeds getClaim of claims.go: a claim string with a slash prefix is
resolved as a JSONPointer into the claim tree, any resolution error
becoming the nil result; otherwise the claim string is looked up directly
at top level, a missing key also giving nil. -/
def getClaim (allClaims : List (String × GoValue)) (claim : String) : GoValue :=
  if hasSlashPrefix claim then
    (pointerGet (GoValue.vmap allClaims) (claimPathParts claim)).getD GoValue.vnull
  else
    (assocGet allClaims claim).getD GoValue.vnull

/-- Result of validateBoundClaims: success, the claim-missing error, the
claim-mismatch error (each naming the offending claim), or a runtime
panic of the interface comparison. -/
inductive BoundClaimsResult where
  | ok
  | missingErr (claim : String)
  | mismatchErr (claim : String)
  | panicked
deriving DecidableEq

/-- Embeds validateBoundClaims of claims.go: for each bound pair the claim
is resolved with getClaim; a nil value is the claim-missing error, then
the Go comparison `expValue != actValue` decides between success for this
pair and the claim-mismatch error, panicking on uncomparable dynamic
types. The Go loop ranges over a map, so the embedding fixes one
iteration order; the source short-circuits on the first failure in its
(unspecified) order. -/
def validateBoundClaims : List (String × GoValue) → List (String × GoValue) → BoundClaimsResult
  | [], _ => .ok
  | (claim, expValue) :: rest, allClaims =>
    if isNull (getClaim allClaims claim) then .missingErr claim
    else
      match goEq expValue (getClaim allClaims claim) with
      | none => .panicked
      | some true => validateBoundClaims rest allClaims
      | some false => .mismatchErr claim

/-- Embeds the recursion of extractMetadata of claims.go over the list of
claim mappings, carrying the metadata map built so far: a nil claim value
is skipped, a string value is written to the target key, and any other
value aborts with an error naming the source claim (modelling the message
about converting that claim to string). -/
def extractMetadataGo (allClaims : List (String × GoValue)) :
    List (String × String) → List (String × String) →
    Except String (List (String × String))
  | [], metadata => .ok metadata
  | (source, target) :: rest, metadata =>
    match getClaim allClaims source with
    | .vnull => extractMetadataGo allClaims rest metadata
    | .vstr s => extractMetadataGo allClaims rest (assocSet metadata target s)
    | _ => .error source

/-- Embeds extractMetadata of claims.go: the recursion above started from
the empty metadata map. -/
def extractMetadata (allClaims : List (String × GoValue))
    (claimMappings : List (String × String)) :
    Except String (List (String × String)) :=
  extractMetadataGo allClaims claimMappings []

/-- Embeds validateAudience of claims.go: with strict mode, no bound
audiences and a nonempty audience claim it errors; with bound audiences
present it succeeds exactly when some bound audience occurs in the claim
(strutil.StrListContains); otherwise it succeeds. -/
def validateAudience (boundAudiences audClaim : List String) (strict : Bool) :
    Except String Unit :=
  if strict ∧ boundAudiences = [] ∧ audClaim ≠ [] then
    .error "audience claim found in JWT but no audiences bound to the role"
  else if boundAudiences ≠ [] then
    if boundAudiences.any fun v => audClaim.contains v then .ok ()
    else .error "aud claim does not match any bound audience"
  else .ok ()

/-- Group alias record: of logical.Alias only the Name field is read by
validateGroups. -/
structure GroupAlias where
  name : String

/-- Loop of validateGroups that enters every bound group into the
groupFound map with value false. -/
def initGroupFoundAux : List (String × Bool) → List String → List (String × Bool)
  | m, [] => m
  | m, g :: rest => initGroupFoundAux (assocSet m g false) rest

/-- Builds the groupFound map of validateGroups: every bound group is
entered with value false. -/
def initGroupFound (boundGroups : List String) : List (String × Bool) :=
  initGroupFoundAux [] boundGroups

/-- Loop of validateGroups over the aliases: each alias whose name is a
key of the groupFound map sets that key to true. -/
def markGroupFound : List (String × Bool) → List GroupAlias → List (String × Bool)
  | m, [] => m
  | m, a :: rest =>
    markGroupFound
      (if (assocGet m a.name).isSome then assocSet m a.name true else m) rest

/-- Embeds validateGroups of claims.go: no bound groups is immediate
success; otherwise the bound groups still marked false after the alias
pass are collected, and a nonempty collection is the error that lists
them all (the source joins them into one message; the embedding keeps the
list, whose order stands in for one unspecified Go map iteration
order). -/
def validateGroups (boundGroups : List String) (groupAliases : List GroupAlias) :
    Except (List String) Unit :=
  if boundGroups = [] then .ok ()
  else
    let found := markGroupFound (initGroupFound boundGroups) groupAliases
    let missing := (found.filter fun kv => !kv.2).map Prod.fst
    if missing = [] then .ok () else .error missing

/-- Reachability of a value inside a claim tree: the resolved value of any
pointer traversal is the root itself or sits inside a nested map or list
of the tree. -/
inductive Subvalue : GoValue → GoValue → Prop
  | refl (v : GoValue) : Subvalue v v
  | inMap {v w : GoValue} {kvs : List (String × GoValue)} (k : String) :
      (k, w) ∈ kvs → Subvalue v w → Subvalue v (.vmap kvs)
  | inList {v w : GoValue} {xs : List GoValue} :
      w ∈ xs → Subvalue v w → Subvalue v (.vlist xs)

/-- Parsed redirect URI, by the components the validator compares
(net/url: Scheme, Hostname() with brackets stripped, Port, Path,
RawQuery). An unparseable allow-list entry such as a bare word keeps an
empty scheme and host and the word as its path, as url.Parse yields. -/
structure GoURL where
  scheme : String
  host : String
  port : Option Nat
  path : String
  rawQuery : String
deriving DecidableEq

/-- Lower-casing by characters, for the case-insensitive scheme and host
comparison the spec prescribes. -/
def lowerStr (s : String) : String :=
  String.mk (s.data.map Char.toLower)

/-- Follows the words of the spec (section 4.6): one candidate matches one
allowed entry when scheme and host are equal up to case and port, path
and raw query are equal exactly. This is the claim-side matching
predicate, kept separate from the modelled validRedirect below so the two
can be compared. -/
def specRedirectMatch (c a : GoURL) : Bool :=
  lowerStr c.scheme = lowerStr a.scheme ∧
  lowerStr c.host = lowerStr a.host ∧
  c.port = a.port ∧
  c.path = a.path ∧
  c.rawQuery = a.rawQuery

/-- Loopback hosts, which OAuth native-app redirect handling (RFC 8252
section 7.3) exempts from port matching. -/
def loopbackHosts : List String := ["localhost", "127.0.0.1", "::1"]

/-- A copy of the URI with the port component removed. -/
def dropPort (u : GoURL) : GoURL := { u with port := none }

/-- Modelled from the spec: validRedirect of path_oidc.go is not among the
repository source files, only its test TestOIDC_ValidRedirect. The model
follows the structural comparison of spec section 4.6, amended by the
loopback port exemption that the test table mandates (a loopback
candidate such as localhost:9000 must match an allow-listed
localhost:5000, while example.com:9000 must not match example.com:5000):
for a loopback candidate host the ports of both sides are ignored. -/
def validRedirect (uri : GoURL) (allowed : List GoURL) : Bool :=
  if loopbackHosts.contains uri.host then
    allowed.any fun a => specRedirectMatch (dropPort uri) (dropPort a)
  else
    allowed.any fun a => specRedirectMatch uri a

/-- State-threaded read of the claims map (every access getClaim performs
is a read; this primitive returns the map it was handed). -/
def getClaimM (allClaims : List (String × GoValue)) (claim : String) :
    GoValue × List (String × GoValue) :=
  (getClaim allClaims claim, allClaims)

/-- State-threaded validateBoundClaims: the claims map is passed through
every step so that the frame property (the map after the call equals the
map before) is a statement about the recursion, not a typing triviality. -/
def validateBoundClaimsM : List (String × GoValue) → List (String × GoValue) →
    BoundClaimsResult × List (String × GoValue)
  | [], allClaims => (.ok, allClaims)
  | (claim, expValue) :: rest, allClaims =>
    let r := getClaimM allClaims claim
    if isNull r.1 then (.missingErr claim, r.2)
    else
      match goEq expValue r.1 with
      | none => (.panicked, r.2)
      | some true => validateBoundClaimsM rest r.2
      | some false => (.mismatchErr claim, r.2)

/-- State-threaded extractMetadata recursion: the claims map flows through
each getClaim read while the fresh metadata map is built beside it. -/
def extractMetadataGoM : List (String × GoValue) → List (String × String) →
    List (String × String) →
    Except String (List (String × String)) × List (String × GoValue)
  | allClaims, [], metadata => (.ok metadata, allClaims)
  | allClaims, (source, target) :: rest, metadata =>
    let r := getClaimM allClaims source
    match r.1 with
    | .vnull => extractMetadataGoM r.2 rest metadata
    | .vstr s => extractMetadataGoM r.2 rest (assocSet metadata target s)
    | _ => (.error source, r.2)

/-- Configuration fields of jwtConfig read by googleGroupsPerUser. -/
structure JwtConfig where
  googleDirectoryImpersonateUser : String
  googleDirectoryServiceAccountKey : String

/-- Directory group record: of admin.Group only an abstract identity
matters here. -/
structure DirectoryGroup where
  name : String

/-- Embeds googleGroupsPerUser of the google directory source file: when
the impersonate-user setting or the service-account key is empty it
returns the empty group list with no error before any directory access;
otherwise it builds the directory client and runs the paged group
listing, which are network effects abstracted by the fetchGroups oracle
(the claims under proof concern only the unconfigured short circuit). -/
def googleGroupsPerUser
    (fetchGroups : String → Except String (List DirectoryGroup))
    (config : JwtConfig) (userKey : String) :
    Except String (List DirectoryGroup) :=
  if config.googleDirectoryImpersonateUser.length = 0 ∨
      config.googleDirectoryServiceAccountKey.length = 0 then
    .ok []
  else
    fetchGroups userKey

lemma isNull_iff (v : GoValue) : isNull v = true ↔ v = GoValue.vnull := by
  cases v <;> simp [isNull]

lemma isNull_eq_false (v : GoValue) : isNull v = false ↔ v ≠ GoValue.vnull := by
  cases v <;> simp [isNull]

lemma assocGet_mem {β : Type} {m : List (String × β)} {k : String} {v : β}
    (h : assocGet m k = some v) : (k, v) ∈ m := by
  induction m with
  | nil => simp [assocGet] at h
  | cons kv rest ih =>
    obtain ⟨k0, v0⟩ := kv
    by_cases hk : k0 = k
    · subst hk
      simp [assocGet] at h
      simp [h]
    · simp [assocGet, hk] at h
      exact List.mem_cons_of_mem _ (ih h)

/-- Claim C2: validateAudience returns ok exactly when either the bound
audiences are nonempty and intersect the audience claim, or the bound
audiences are empty and (strict is false or the audience claim is empty);
in every other case it returns an error. -/
theorem validateAudience_spec (boundAudiences audClaim : List String) (strict : Bool) :
    validateAudience boundAudiences audClaim strict = .ok () ↔
      (boundAudiences ≠ [] ∧ ∃ a ∈ boundAudiences, a ∈ audClaim) ∨
      (boundAudiences = [] ∧ (strict = false ∨ audClaim = [])) := by
  rcases boundAudiences with _ | ⟨b, bs⟩
  · cases strict <;> rcases audClaim with _ | ⟨a, as⟩ <;>
      simp [validateAudience]
  · have hne : (b :: bs : List String) ≠ [] := by simp
    cases hany : (b :: bs).any fun v => audClaim.contains v <;>
      simp_all [validateAudience, List.any_eq_true]

/-- Claim C7 (status: the code contradicts the spec here): at the concrete
input where the single bound claim and the matching token claim are both
lists, the Go comparison in validateBoundClaims is between two values of
the identical uncomparable dynamic type, a runtime panic, not an error
return. -/
theorem validateBoundClaims_panics_on_uncomparable :
    validateBoundClaims [("groups", GoValue.vlist [GoValue.vstr "eng"])]
      [("groups", GoValue.vlist [GoValue.vstr "eng"])] = .panicked := rfl

/-- Claim C9: with the impersonate-user setting or the service-account key
empty, googleGroupsPerUser returns the empty group list and no error for
every user key and every behaviour of the directory service (the result
does not depend on the fetch oracle, so the service is never needed). -/
theorem googleGroupsPerUser_unconfigured
    (fetchGroups : String → Except String (List DirectoryGroup))
    (config : JwtConfig) (userKey : String)
    (h : config.googleDirectoryImpersonateUser = "" ∨
      config.googleDirectoryServiceAccountKey = "") :
    googleGroupsPerUser fetchGroups config userKey = .ok [] := by
  rcases h with h | h <;> simp [googleGroupsPerUser, h]

/-- Witness for claim C9 at a concrete unconfigured setup and a directory
oracle that would fail if consulted. -/
theorem googleGroupsPerUser_unconfigured_witness :
    googleGroupsPerUser (fun _ => Except.error "network unavailable")
      ⟨"", "service-account-key"⟩ "bob" = .ok [] :=
  googleGroupsPerUser_unconfigured _ _ _ (Or.inl rfl)

/-- Claim C10: a top-level claim bound to the JSON null value is treated
exactly like an absent claim: getClaim yields the nil result for it, the
same result as for a claims map where the key is missing; a bound claim
naming it is reported missing by validateBoundClaims; and extractMetadata
skips its mapping silently. -/
theorem nullClaim_treated_as_absent (allClaims : List (String × GoValue))
    (claim : String)
    (hdirect : hasSlashPrefix claim = false)
    (hnull : assocGet allClaims claim = some GoValue.vnull) :
    getClaim allClaims claim = GoValue.vnull ∧
    (∀ other : List (String × GoValue), assocGet other claim = none →
      getClaim other claim = getClaim allClaims claim) ∧
    (∀ expValue rest,
      validateBoundClaims ((claim, expValue) :: rest) allClaims = .missingErr claim) ∧
    (∀ target rest metadata,
      extractMetadataGo allClaims ((claim, target) :: rest) metadata =
        extractMetadataGo allClaims rest metadata) := by
  have hg : getClaim allClaims claim = GoValue.vnull := by
    simp [getClaim, hdirect, hnull]
  refine ⟨hg, ?_, ?_, ?_⟩
  · intro other h2
    rw [hg]
    simp [getClaim, hdirect, h2]
  · intro expValue rest
    simp [validateBoundClaims, hg, isNull]
  · intro target rest metadata
    simp [extractMetadataGo, hg]

/-- Witness for claim C10: a token that explicitly carries the email key
with a null value behaves as if the key were absent. -/
theorem nullClaim_treated_as_absent_witness :
    getClaim [("email", GoValue.vnull)] "email" = GoValue.vnull :=
  (nullClaim_treated_as_absent [("email", GoValue.vnull)] "email" rfl rfl).1

/-- Claim C1: validateBoundClaims succeeds exactly when every bound pair
resolves through getClaim to a present (non-nil) value whose Go
comparison with the expected value yields true (strict dynamic-type
equality, no numeric coercion); the claim-missing error is returned only
for a configured claim whose resolved value is nil, and the
claim-mismatch error only for a configured claim whose present resolved
value compares unequal to its expected value. The success condition is
conjunctive over all configured pairs. -/
theorem validateBoundClaims_spec (boundClaims allClaims : List (String × GoValue)) :
    (validateBoundClaims boundClaims allClaims = .ok ↔
      ∀ p ∈ boundClaims, getClaim allClaims p.1 ≠ GoValue.vnull ∧
        goEq p.2 (getClaim allClaims p.1) = some true) ∧
    (∀ c, validateBoundClaims boundClaims allClaims = .missingErr c →
      getClaim allClaims c = GoValue.vnull ∧ ∃ e, (c, e) ∈ boundClaims) ∧
    (∀ c, validateBoundClaims boundClaims allClaims = .mismatchErr c →
      ∃ e, (c, e) ∈ boundClaims ∧ getClaim allClaims c ≠ GoValue.vnull ∧
        goEq e (getClaim allClaims c) = some false) := by
  induction boundClaims with
  | nil =>
    refine ⟨by simp [validateBoundClaims], ?_, ?_⟩ <;>
      intro c h <;> simp [validateBoundClaims] at h
  | cons p rest ih =>
    obtain ⟨claim, expValue⟩ := p
    by_cases h1 : isNull (getClaim allClaims claim) = true
    · have hv := (isNull_iff _).mp h1
      refine ⟨?_, ?_, ?_⟩
      · constructor
        · intro h
          simp [validateBoundClaims, h1] at h
        · intro hall
          exact absurd hv (hall (claim, expValue) (List.mem_cons_self _ _)).1
      · intro c hc
        simp [validateBoundClaims, h1] at hc
        subst hc
        exact ⟨hv, expValue, List.mem_cons_self _ _⟩
      · intro c hc
        simp [validateBoundClaims, h1] at hc
    · have h1f : isNull (getClaim allClaims claim) = false := by
        cases h : isNull (getClaim allClaims claim)
        · rfl
        · exact absurd h h1
      have hne := (isNull_eq_false _).mp h1f
      cases h2 : goEq expValue (getClaim allClaims claim) with
      | none =>
        refine ⟨?_, ?_, ?_⟩
        · constructor
          · intro h
            simp [validateBoundClaims, h1f, h2] at h
          · intro hall
            have := (hall (claim, expValue) (List.mem_cons_self _ _)).2
            rw [h2] at this
            exact Option.noConfusion this
        · intro c hc
          simp [validateBoundClaims, h1f, h2] at hc
        · intro c hc
          simp [validateBoundClaims, h1f, h2] at hc
      | some b =>
        cases b with
        | true =>
          have hstep : validateBoundClaims ((claim, expValue) :: rest) allClaims =
              validateBoundClaims rest allClaims := by
            simp [validateBoundClaims, h1f, h2]
          refine ⟨?_, ?_, ?_⟩
          · rw [hstep, ih.1, List.forall_mem_cons]
            simp [hne, h2]
          · intro c hc
            rw [hstep] at hc
            obtain ⟨hnull, e, hmem⟩ := ih.2.1 c hc
            exact ⟨hnull, e, List.mem_cons_of_mem _ hmem⟩
          · intro c hc
            rw [hstep] at hc
            obtain ⟨e, hmem, hrest⟩ := ih.2.2 c hc
            exact ⟨e, List.mem_cons_of_mem _ hmem, hrest⟩
        | false =>
          refine ⟨?_, ?_, ?_⟩
          · constructor
            · intro h
              simp [validateBoundClaims, h1f, h2] at h
            · intro hall
              have := (hall (claim, expValue) (List.mem_cons_self _ _)).2
              rw [h2] at this
              simp at this
          · intro c hc
            simp [validateBoundClaims, h1f, h2] at hc
          · intro c hc
            simp [validateBoundClaims, h1f, h2] at hc
            subst hc
            exact ⟨expValue, List.mem_cons_self _ _, hne, h2⟩

/-- Witness for claim C1 at the concrete role of the callback test: the
bound claim sk expects the string 42 while the token carries 43, and the
theorem localizes the mismatch error to that claim and value. -/
theorem validateBoundClaims_spec_witness :
    ∃ e, ("sk", e) ∈ [("sk", GoValue.vstr "42")] ∧
      getClaim [("sk", GoValue.vstr "43")] "sk" ≠ GoValue.vnull ∧
      goEq e (getClaim [("sk", GoValue.vstr "43")] "sk") = some false :=
  (validateBoundClaims_spec [("sk", GoValue.vstr "42")]
    [("sk", GoValue.vstr "43")]).2.2 "sk" rfl

lemma pointerGet_subvalue :
    ∀ (parts : List String) (root v : GoValue),
      pointerGet root parts = some v → Subvalue v root := by
  intro parts
  induction parts with
  | nil =>
    intro root v h
    simp [pointerGet] at h
    exact h ▸ Subvalue.refl root
  | cons p rest ih =>
    intro root v h
    cases root with
    | vmap kvs =>
      cases hga : assocGet kvs p with
      | none => simp [pointerGet, hga] at h
      | some w =>
        simp only [pointerGet, hga] at h
        exact Subvalue.inMap p (assocGet_mem hga) (ih w v h)
    | vlist xs =>
      cases hpi : parseArrayIndex p.data with
      | none => simp [pointerGet, hpi] at h
      | some i =>
        simp only [pointerGet, hpi] at h
        by_cases hi : 0 ≤ i
        · rw [if_pos hi] at h
          cases hgx : xs.get? i.toNat with
          | none =>
            rw [hgx] at h
            exact Option.noConfusion h
          | some w =>
            rw [hgx] at h
            exact Subvalue.inList (List.get?_mem hgx) (ih w v h)
        · rw [if_neg hi] at h
          exact Option.noConfusion h
    | vnull => simp [pointerGet] at h
    | vbool b => simp [pointerGet] at h
    | vfloat f => simp [pointerGet] at h
    | vjsonnum s => simp [pointerGet] at h
    | vstr s => simp [pointerGet] at h

/-- Claim C4: getClaim is a total function of the claims map and the claim
string. A claim string with the slash prefix is resolved as a structured
pointer path, any malformed or unresolvable path giving the absent (nil)
result instead of a propagated error; any other claim string is a direct
top-level lookup with the same absent default; and in every case the
result is nil or a value reachable inside the claim tree. -/
theorem getClaim_spec (allClaims : List (String × GoValue)) (claim : String) :
    (hasSlashPrefix claim = true →
      getClaim allClaims claim =
        (pointerGet (GoValue.vmap allClaims) (claimPathParts claim)).getD GoValue.vnull) ∧
    (hasSlashPrefix claim = false →
      getClaim allClaims claim = (assocGet allClaims claim).getD GoValue.vnull) ∧
    (getClaim allClaims claim = GoValue.vnull ∨
      Subvalue (getClaim allClaims claim) (GoValue.vmap allClaims)) := by
  refine ⟨fun h => by simp [getClaim, h], fun h => by simp [getClaim, h], ?_⟩
  cases h : hasSlashPrefix claim with
  | true =>
    cases hp : pointerGet (GoValue.vmap allClaims) (claimPathParts claim) with
    | none => left; simp [getClaim, h, hp]
    | some v =>
      right
      have hs := pointerGet_subvalue _ _ _ hp
      have hv : getClaim allClaims claim = v := by simp [getClaim, h, hp]
      rw [hv]
      exact hs
  | false =>
    cases hg : assocGet allClaims claim with
    | none => left; simp [getClaim, h, hg]
    | some v =>
      right
      have hv : getClaim allClaims claim = v := by simp [getClaim, h, hg]
      rw [hv]
      exact Subvalue.inMap claim (assocGet_mem hg) (Subvalue.refl v)

/-- Witness for claim C4 at the nested claim path of the callback test. -/
theorem getClaim_spec_witness :
    getClaim [("nested", GoValue.vmap [("Size", GoValue.vstr "medium")])] "/nested/Size" =
      (pointerGet
        (GoValue.vmap [("nested", GoValue.vmap [("Size", GoValue.vstr "medium")])])
        (claimPathParts "/nested/Size")).getD GoValue.vnull :=
  (getClaim_spec [("nested", GoValue.vmap [("Size", GoValue.vstr "medium")])]
    "/nested/Size").1 rfl

/-- Claim C8: the claim-reading functions never mutate the claims map. In
the state-threaded embedding, where the claims map flows through every
read that getClaim, validateBoundClaims and extractMetadata perform, the
map handed back after any call is the map handed in, and the computed
results agree with the pure embedding. -/
theorem claims_map_not_mutated (allClaims : List (String × GoValue)) :
    (∀ claim, (getClaimM allClaims claim).2 = allClaims) ∧
    (∀ boundClaims,
      (validateBoundClaimsM boundClaims allClaims).2 = allClaims ∧
      (validateBoundClaimsM boundClaims allClaims).1 =
        validateBoundClaims boundClaims allClaims) ∧
    (∀ claimMappings metadata,
      (extractMetadataGoM allClaims claimMappings metadata).2 = allClaims ∧
      (extractMetadataGoM allClaims claimMappings metadata).1 =
        extractMetadataGo allClaims claimMappings metadata) := by
  refine ⟨fun claim => rfl, ?_, ?_⟩
  · intro boundClaims
    induction boundClaims with
    | nil => exact ⟨rfl, rfl⟩
    | cons p rest ih =>
      obtain ⟨claim, expValue⟩ := p
      cases h1 : isNull (getClaim allClaims claim) with
      | true =>
        constructor <;>
          simp [validateBoundClaimsM, validateBoundClaims, getClaimM, h1]
      | false =>
        cases h2 : goEq expValue (getClaim allClaims claim) with
        | none =>
          constructor <;>
            simp [validateBoundClaimsM, validateBoundClaims, getClaimM, h1, h2]
        | some b =>
          cases b with
          | true =>
            refine ⟨?_, ?_⟩
            · simpa [validateBoundClaimsM, getClaimM, h1, h2] using ih.1
            · simpa [validateBoundClaimsM, validateBoundClaims, getClaimM, h1, h2]
                using ih.2
          | false =>
            constructor <;>
              simp [validateBoundClaimsM, validateBoundClaims, getClaimM, h1, h2]
  · intro claimMappings
    induction claimMappings with
    | nil => exact fun metadata => ⟨rfl, rfl⟩
    | cons p rest ih =>
      intro metadata
      obtain ⟨source, target⟩ := p
      cases hv : getClaim allClaims source with
      | vnull =>
        constructor <;>
          simp [extractMetadataGoM, extractMetadataGo, getClaimM, hv, ih metadata]
      | vstr s =>
        constructor <;>
          simp [extractMetadataGoM, extractMetadataGo, getClaimM, hv,
            ih (assocSet metadata target s)]
      | vbool b =>
        constructor <;>
          simp [extractMetadataGoM, extractMetadataGo, getClaimM, hv]
      | vfloat f =>
        constructor <;>
          simp [extractMetadataGoM, extractMetadataGo, getClaimM, hv]
      | vjsonnum s =>
        constructor <;>
          simp [extractMetadataGoM, extractMetadataGo, getClaimM, hv]
      | vlist xs =>
        constructor <;>
          simp [extractMetadataGoM, extractMetadataGo, getClaimM, hv]
      | vmap kvs =>
        constructor <;>
          simp [extractMetadataGoM, extractMetadataGo, getClaimM, hv]

lemma assocGet_set {β : Type} (m : List (String × β)) (k : String) (v : β)
    (q : String) :
    assocGet (assocSet m k v) q = if k = q then some v else assocGet m q := by
  induction m with
  | nil => simp [assocSet, assocGet]
  | cons kv rest ih =>
    obtain ⟨k0, v0⟩ := kv
    by_cases h0 : k0 = k
    · subst h0
      by_cases hq : k0 = q <;> simp [assocSet, assocGet, hq]
    · by_cases hq : k0 = q
      · subst hq
        have hk : ¬k = k0 := fun h => h0 h.symm
        simp [assocSet, assocGet, h0, hk]
      · simp [assocSet, assocGet, h0, hq, ih]

lemma extractMetadataGo_ok_iff (allClaims : List (String × GoValue)) :
    ∀ (claimMappings metadata : List (String × String)),
      (∃ m, extractMetadataGo allClaims claimMappings metadata = .ok m) ↔
      ∀ p ∈ claimMappings, getClaim allClaims p.1 = GoValue.vnull ∨
        ∃ s, getClaim allClaims p.1 = GoValue.vstr s := by
  intro claimMappings
  induction claimMappings with
  | nil =>
    intro metadata
    simp [extractMetadataGo]
  | cons p rest ih =>
    intro metadata
    obtain ⟨source, target⟩ := p
    cases hv : getClaim allClaims source with
    | vnull => simp [extractMetadataGo, hv, List.forall_mem_cons, ih]
    | vstr s => simp [extractMetadataGo, hv, List.forall_mem_cons, ih]
    | vbool b => simp [extractMetadataGo, hv, List.forall_mem_cons]
    | vfloat f => simp [extractMetadataGo, hv, List.forall_mem_cons]
    | vjsonnum s => simp [extractMetadataGo, hv, List.forall_mem_cons]
    | vlist xs => simp [extractMetadataGo, hv, List.forall_mem_cons]
    | vmap kvs => simp [extractMetadataGo, hv, List.forall_mem_cons]

lemma extractMetadataGo_error (allClaims : List (String × GoValue)) :
    ∀ (claimMappings metadata : List (String × String)) (src : String),
      extractMetadataGo allClaims claimMappings metadata = .error src →
      ∃ tgt, (src, tgt) ∈ claimMappings ∧ getClaim allClaims src ≠ GoValue.vnull ∧
        ∀ s, getClaim allClaims src ≠ GoValue.vstr s := by
  intro claimMappings
  induction claimMappings with
  | nil =>
    intro metadata src h
    simp [extractMetadataGo] at h
  | cons p rest ih =>
    intro metadata src h
    obtain ⟨source, target⟩ := p
    cases hv : getClaim allClaims source with
    | vnull =>
      simp only [extractMetadataGo, hv] at h
      obtain ⟨tgt, hmem, hrest⟩ := ih metadata src h
      exact ⟨tgt, List.mem_cons_of_mem _ hmem, hrest⟩
    | vstr s =>
      simp only [extractMetadataGo, hv] at h
      obtain ⟨tgt, hmem, hrest⟩ := ih (assocSet metadata target s) src h
      exact ⟨tgt, List.mem_cons_of_mem _ hmem, hrest⟩
    | vbool b =>
      simp only [extractMetadataGo, hv, Except.error.injEq] at h
      subst h
      exact ⟨target, List.mem_cons_self _ _, by simp [hv], by simp [hv]⟩
    | vfloat f =>
      simp only [extractMetadataGo, hv, Except.error.injEq] at h
      subst h
      exact ⟨target, List.mem_cons_self _ _, by simp [hv], by simp [hv]⟩
    | vjsonnum s =>
      simp only [extractMetadataGo, hv, Except.error.injEq] at h
      subst h
      exact ⟨target, List.mem_cons_self _ _, by simp [hv], by simp [hv]⟩
    | vlist xs =>
      simp only [extractMetadataGo, hv, Except.error.injEq] at h
      subst h
      exact ⟨target, List.mem_cons_self _ _, by simp [hv], by simp [hv]⟩
    | vmap kvs =>
      simp only [extractMetadataGo, hv, Except.error.injEq] at h
      subst h
      exact ⟨target, List.mem_cons_self _ _, by simp [hv], by simp [hv]⟩

lemma extractMetadataGo_untouched (allClaims : List (String × GoValue)) :
    ∀ (claimMappings metadata m : List (String × String)) (tgt : String),
      extractMetadataGo allClaims claimMappings metadata = .ok m →
      tgt ∉ claimMappings.map Prod.snd →
      assocGet m tgt = assocGet metadata tgt := by
  intro claimMappings
  induction claimMappings with
  | nil =>
    intro metadata m tgt h _
    simp only [extractMetadataGo, Except.ok.injEq] at h
    rw [h]
  | cons p rest ih =>
    intro metadata m tgt h htgt
    obtain ⟨source, target⟩ := p
    have htgt1 : tgt ≠ target := by
      intro he
      exact htgt (by simp [he])
    have htgt2 : tgt ∉ rest.map Prod.snd := by
      intro he
      exact htgt (by simp [he])
    cases hv : getClaim allClaims source with
    | vnull =>
      simp only [extractMetadataGo, hv] at h
      exact ih metadata m tgt h htgt2
    | vstr s =>
      simp only [extractMetadataGo, hv] at h
      rw [ih (assocSet metadata target s) m tgt h htgt2, assocGet_set,
        if_neg fun he => htgt1 he.symm]
    | vbool b => simp [extractMetadataGo, hv] at h
    | vfloat f => simp [extractMetadataGo, hv] at h
    | vjsonnum s => simp [extractMetadataGo, hv] at h
    | vlist xs => simp [extractMetadataGo, hv] at h
    | vmap kvs => simp [extractMetadataGo, hv] at h

lemma extractMetadataGo_ok_lookup (allClaims : List (String × GoValue)) :
    ∀ (claimMappings metadata m : List (String × String)),
      (claimMappings.map Prod.snd).Nodup →
      extractMetadataGo allClaims claimMappings metadata = .ok m →
      ∀ src tgt s, (src, tgt) ∈ claimMappings →
        getClaim allClaims src = GoValue.vstr s → assocGet m tgt = some s := by
  intro claimMappings
  induction claimMappings with
  | nil =>
    intro metadata m _ _ src tgt s hmem
    simp at hmem
  | cons p rest ih =>
    intro metadata m hnd h src tgt s hmem hstr
    obtain ⟨source, target⟩ := p
    simp only [List.map_cons, List.nodup_cons] at hnd
    obtain ⟨hnd1, hnd2⟩ := hnd
    rcases List.mem_cons.mp hmem with hhead | htail
    · obtain ⟨hsrc, htgt⟩ := Prod.mk.injEq .. ▸ hhead
      subst hsrc
      subst htgt
      cases hv : getClaim allClaims src with
      | vstr s0 =>
        rw [hv] at hstr
        injection hstr with hs
        subst hs
        simp only [extractMetadataGo, hv] at h
        rw [extractMetadataGo_untouched allClaims rest (assocSet metadata tgt s0)
            m tgt h hnd1, assocGet_set]
        simp
      | vnull =>
        rw [hv] at hstr
        exact absurd hstr (by simp)
      | vbool b => simp [extractMetadataGo, hv] at h
      | vfloat f => simp [extractMetadataGo, hv] at h
      | vjsonnum s1 => simp [extractMetadataGo, hv] at h
      | vlist xs => simp [extractMetadataGo, hv] at h
      | vmap kvs => simp [extractMetadataGo, hv] at h
    · cases hv : getClaim allClaims source with
      | vnull =>
        simp only [extractMetadataGo, hv] at h
        exact ih metadata m hnd2 h src tgt s htail hstr
      | vstr s0 =>
        simp only [extractMetadataGo, hv] at h
        exact ih (assocSet metadata target s0) m hnd2 h src tgt s htail hstr
      | vbool b => simp [extractMetadataGo, hv] at h
      | vfloat f => simp [extractMetadataGo, hv] at h
      | vjsonnum s1 => simp [extractMetadataGo, hv] at h
      | vlist xs => simp [extractMetadataGo, hv] at h
      | vmap kvs => simp [extractMetadataGo, hv] at h

/-- Claim C5: extractMetadata succeeds exactly when every mapped claim
path resolves to nil (skipped silently) or to a string; a mapped path
resolving to a present non-string value makes the whole call fail with an
error naming that path (and no metadata map is returned); and on success
with distinct target keys, each target key of a string-valued source path
is bound in the result to that resolved string. -/
theorem extractMetadata_spec (allClaims : List (String × GoValue))
    (claimMappings : List (String × String)) :
    ((∃ m, extractMetadata allClaims claimMappings = .ok m) ↔
      ∀ p ∈ claimMappings, getClaim allClaims p.1 = GoValue.vnull ∨
        ∃ s, getClaim allClaims p.1 = GoValue.vstr s) ∧
    (∀ src, extractMetadata allClaims claimMappings = .error src →
      ∃ tgt, (src, tgt) ∈ claimMappings ∧ getClaim allClaims src ≠ GoValue.vnull ∧
        ∀ s, getClaim allClaims src ≠ GoValue.vstr s) ∧
    (∀ m, extractMetadata allClaims claimMappings = .ok m →
      (claimMappings.map Prod.snd).Nodup →
      ∀ src tgt s, (src, tgt) ∈ claimMappings →
        getClaim allClaims src = GoValue.vstr s → assocGet m tgt = some s) :=
  ⟨extractMetadataGo_ok_iff allClaims claimMappings [],
   fun src h => extractMetadataGo_error allClaims claimMappings [] src h,
   fun m h hnd src tgt s hmem hstr =>
     extractMetadataGo_ok_lookup allClaims claimMappings [] m hnd h src tgt s hmem hstr⟩

/-- Witness for claim C5 at the claim mappings of the callback test: the
COLOR claim is extracted into the color metadata key. -/
theorem extractMetadata_spec_witness :
    assocGet [("color", "green"), ("size", "medium")] "color" = some "green" :=
  (extractMetadata_spec
      [("COLOR", GoValue.vstr "green"),
       ("nested", GoValue.vmap [("Size", GoValue.vstr "medium")])]
      [("COLOR", "color"), ("/nested/Size", "size")]).2.2
    [("color", "green"), ("size", "medium")] rfl (by simp)
    "COLOR" "color" "green" (List.mem_cons_self _ _) rfl

lemma assocSet_cons_eq {β : Type} (rest : List (String × β)) (k0 : String)
    (v0 v : β) : assocSet ((k0, v0) :: rest) k0 v = (k0, v) :: rest := by
  simp [assocSet]

lemma assocSet_cons_ne {β : Type} (rest : List (String × β)) (k0 k : String)
    (v0 v : β) (h : ¬k0 = k) :
    assocSet ((k0, v0) :: rest) k v = (k0, v0) :: assocSet rest k v := by
  simp [assocSet, h]

lemma assocSet_mem_keys {β : Type} (m : List (String × β)) (k : String) (v : β)
    (q : String) :
    q ∈ (assocSet m k v).map Prod.fst ↔ q = k ∨ q ∈ m.map Prod.fst := by
  induction m with
  | nil => simp [assocSet]
  | cons kv rest ih =>
    obtain ⟨k0, v0⟩ := kv
    by_cases h0 : k0 = k
    · subst h0
      rw [assocSet_cons_eq]
      simp only [List.map_cons, List.mem_cons]
      tauto
    · rw [assocSet_cons_ne rest k0 k v0 v h0]
      simp only [List.map_cons, List.mem_cons, ih]
      tauto

lemma assocSet_nodup {β : Type} (m : List (String × β)) (k : String) (v : β)
    (h : (m.map Prod.fst).Nodup) : ((assocSet m k v).map Prod.fst).Nodup := by
  induction m with
  | nil => simp [assocSet]
  | cons kv rest ih =>
    obtain ⟨k0, v0⟩ := kv
    simp only [List.map_cons, List.nodup_cons] at h
    obtain ⟨h1, h2⟩ := h
    by_cases h0 : k0 = k
    · subst h0
      rw [assocSet_cons_eq]
      simp only [List.map_cons, List.nodup_cons]
      exact ⟨h1, h2⟩
    · rw [assocSet_cons_ne rest k0 k v0 v h0]
      simp only [List.map_cons, List.nodup_cons]
      refine ⟨?_, ih h2⟩
      rw [assocSet_mem_keys]
      rintro (he | he)
      · exact h0 he
      · exact h1 he

lemma assocSet_keys_of_mem {β : Type} (m : List (String × β)) (k : String) (v : β)
    (h : k ∈ m.map Prod.fst) : (assocSet m k v).map Prod.fst = m.map Prod.fst := by
  induction m with
  | nil => simp at h
  | cons kv rest ih =>
    obtain ⟨k0, v0⟩ := kv
    by_cases h0 : k0 = k
    · subst h0
      simp [assocSet]
    · have hk : k ∈ rest.map Prod.fst := by
        simp only [List.map_cons, List.mem_cons] at h
        rcases h with h | h
        · exact absurd h.symm h0
        · exact h
      simp [assocSet, h0, ih hk]

lemma mem_iff_assocGet {β : Type} (m : List (String × β)) (g : String) (b : β)
    (hnd : (m.map Prod.fst).Nodup) : (g, b) ∈ m ↔ assocGet m g = some b := by
  induction m with
  | nil => simp [assocGet]
  | cons kv rest ih =>
    obtain ⟨k0, v0⟩ := kv
    simp only [List.map_cons, List.nodup_cons] at hnd
    obtain ⟨h1, h2⟩ := hnd
    by_cases hk : k0 = g
    · subst hk
      have hnot : (k0, b) ∉ rest := fun hm =>
        h1 (List.mem_map_of_mem Prod.fst hm)
      have hget : assocGet ((k0, v0) :: rest) k0 = some v0 := by
        simp [assocGet]
      rw [hget, List.mem_cons]
      constructor
      · rintro (he | he)
        · injection he with he1 he2
          rw [he2]
        · exact absurd he hnot
      · intro he
        injection he with he
        left
        rw [he]
    · simp only [assocGet, if_neg hk, List.mem_cons]
      rw [← ih h2]
      constructor
      · rintro (he | he)
        · injection he with he1 he2
          exact absurd he1.symm hk
        · exact he
      · exact fun he => Or.inr he

lemma assocGet_initGroupFoundAux (boundGroups : List String) :
    ∀ (m : List (String × Bool)) (g : String),
      assocGet (initGroupFoundAux m boundGroups) g =
        if g ∈ boundGroups then some false else assocGet m g := by
  induction boundGroups with
  | nil => simp [initGroupFoundAux]
  | cons b bs ih =>
    intro m g
    simp only [initGroupFoundAux]
    rw [ih]
    by_cases hg : g ∈ bs
    · simp [hg]
    · by_cases hb : b = g
      · subst hb
        simp [hg, assocGet_set]
      · have hgb : ¬g = b := fun h => hb h.symm
        simp [hg, hb, hgb, assocGet_set]

lemma initGroupFoundAux_nodup (boundGroups : List String) :
    ∀ m : List (String × Bool), (m.map Prod.fst).Nodup →
      ((initGroupFoundAux m boundGroups).map Prod.fst).Nodup := by
  induction boundGroups with
  | nil => exact fun m h => h
  | cons b bs ih =>
    intro m h
    exact ih _ (assocSet_nodup m b false h)

lemma markGroupFound_keys (groupAliases : List GroupAlias) :
    ∀ m : List (String × Bool),
      (markGroupFound m groupAliases).map Prod.fst = m.map Prod.fst := by
  induction groupAliases with
  | nil => exact fun m => rfl
  | cons a as ih =>
    intro m
    simp only [markGroupFound]
    rw [ih]
    by_cases ha : (assocGet m a.name).isSome
    · rw [if_pos ha]
      obtain ⟨b, hv⟩ := Option.isSome_iff_exists.mp ha
      exact assocSet_keys_of_mem m a.name true
        (List.mem_map_of_mem Prod.fst (assocGet_mem hv))
    · rw [if_neg ha]

lemma assocGet_markGroupFound (groupAliases : List GroupAlias) :
    ∀ (m : List (String × Bool)) (g : String),
      assocGet (markGroupFound m groupAliases) g =
        if (assocGet m g).isSome ∧ g ∈ groupAliases.map GroupAlias.name then some true
        else assocGet m g := by
  induction groupAliases with
  | nil => simp [markGroupFound]
  | cons a as ih =>
    intro m g
    simp only [markGroupFound]
    rw [ih]
    by_cases hn : a.name = g
    · subst hn
      by_cases hp : (assocGet m a.name).isSome
      · rw [if_pos hp]
        have hgot : assocGet (assocSet m a.name true) a.name = some true := by
          rw [assocGet_set, if_pos rfl]
        by_cases hm : a.name ∈ as.map GroupAlias.name <;>
          simp [hgot, hp, hm]
      · rw [if_neg hp]
        have hnone : assocGet m a.name = none := by
          cases hv : assocGet m a.name with
          | none => rfl
          | some b => rw [hv] at hp; simp at hp
        simp [hnone]
    · have hstep :
          assocGet (if (assocGet m a.name).isSome then assocSet m a.name true else m) g =
            assocGet m g := by
        by_cases hp : (assocGet m a.name).isSome
        · rw [if_pos hp, assocGet_set, if_neg hn]
        · rw [if_neg hp]
      rw [hstep]
      have hgn : ¬g = a.name := fun h => hn h.symm
      by_cases hm : g ∈ as.map GroupAlias.name <;>
        simp [hm, hgn]

/-- Claim C6: validateGroups passes whenever the bound group list is
empty; otherwise it passes exactly when every bound group name appears
among the alias names; and a failure carries the complete set of missing
bound group names, characterized by membership (one error lists them
all, not only the first). -/
theorem validateGroups_spec (boundGroups : List String)
    (groupAliases : List GroupAlias) :
    (boundGroups = [] → validateGroups boundGroups groupAliases = .ok ()) ∧
    (validateGroups boundGroups groupAliases = .ok () ↔
      ∀ g ∈ boundGroups, g ∈ groupAliases.map GroupAlias.name) ∧
    (∀ missing, validateGroups boundGroups groupAliases = .error missing →
      boundGroups ≠ [] ∧
      ∀ g, g ∈ missing ↔
        g ∈ boundGroups ∧ g ∉ groupAliases.map GroupAlias.name) := by
  by_cases hbg : boundGroups = []
  · subst hbg
    refine ⟨fun _ => rfl, by simp [validateGroups], ?_⟩
    intro missing h
    simp [validateGroups] at h
  · have hinit : ∀ g, assocGet (initGroupFound boundGroups) g =
        if g ∈ boundGroups then some false else none := by
      intro g
      rw [initGroupFound, assocGet_initGroupFoundAux]
      rfl
    have hfoundget : ∀ g,
        assocGet (markGroupFound (initGroupFound boundGroups) groupAliases) g =
          some false ↔
        g ∈ boundGroups ∧ g ∉ groupAliases.map GroupAlias.name := by
      intro g
      rw [assocGet_markGroupFound, hinit]
      by_cases hg : g ∈ boundGroups
      · by_cases hm : g ∈ groupAliases.map GroupAlias.name <;> simp [hg, hm]
      · simp [hg]
    have hnodup :
        ((markGroupFound (initGroupFound boundGroups) groupAliases).map
          Prod.fst).Nodup := by
      rw [markGroupFound_keys]
      exact initGroupFoundAux_nodup boundGroups [] (by simp)
    have hmiss : ∀ g,
        g ∈ ((markGroupFound (initGroupFound boundGroups) groupAliases).filter
          fun kv => !kv.2).map Prod.fst ↔
        g ∈ boundGroups ∧ g ∉ groupAliases.map GroupAlias.name := by
      intro g
      rw [← hfoundget,
        ← mem_iff_assocGet (markGroupFound (initGroupFound boundGroups) groupAliases)
          g false hnodup]
      simp only [List.mem_map, List.mem_filter]
      constructor
      · rintro ⟨⟨a, b⟩, ⟨hmem, hb⟩, rfl⟩
        cases b with
        | false => exact hmem
        | true => simp at hb
      · intro hmem
        exact ⟨(g, false), ⟨hmem, rfl⟩, rfl⟩
    have hunfold : validateGroups boundGroups groupAliases =
        if ((markGroupFound (initGroupFound boundGroups) groupAliases).filter
            fun kv => !kv.2).map Prod.fst = [] then .ok ()
        else .error (((markGroupFound (initGroupFound boundGroups)
            groupAliases).filter fun kv => !kv.2).map Prod.fst) := by
      simp only [validateGroups, if_neg hbg]
    refine ⟨fun h => absurd h hbg, ?_, ?_⟩
    · rw [hunfold]
      by_cases hM : ((markGroupFound (initGroupFound boundGroups)
          groupAliases).filter fun kv => !kv.2).map Prod.fst = []
      · rw [if_pos hM]
        simp only [true_iff]
        intro g hg
        by_contra hnm
        exact (List.eq_nil_iff_forall_not_mem.mp hM g) ((hmiss g).mpr ⟨hg, hnm⟩)
      · rw [if_neg hM]
        constructor
        · intro h
          exact Except.noConfusion h
        · intro hall
          obtain ⟨g, hg⟩ := List.exists_mem_of_ne_nil _ hM
          obtain ⟨hgb, hgn⟩ := (hmiss g).mp hg
          exact absurd (hall g hgb) hgn
    · intro missing h
      rw [hunfold] at h
      by_cases hM : ((markGroupFound (initGroupFound boundGroups)
          groupAliases).filter fun kv => !kv.2).map Prod.fst = []
      · rw [if_pos hM] at h
        exact Except.noConfusion h
      · rw [if_neg hM] at h
        injection h with h
        subst h
        exact ⟨hbg, hmiss⟩

/-- Witness for claim C6 at concrete groups: bound groups a and c against
aliases a and b fail with exactly the missing group c. -/
theorem validateGroups_spec_witness :
    "c" ∈ (["c"] : List String) ↔
      "c" ∈ (["a", "c"] : List String) ∧
      "c" ∉ ([⟨"a"⟩, ⟨"b"⟩] : List GroupAlias).map GroupAlias.name :=
  ((validateGroups_spec ["a", "c"] [⟨"a"⟩, ⟨"b"⟩]).2.2 ["c"] rfl).2 "c"

/-- Claim C3 (amended): redirect validation is the exact structural
allow-list match of the spec, except that for a loopback candidate host
(localhost, 127.0.0.1 or the IPv6 loopback) the port of the candidate and
of the allow-list entry are both ignored, as the test table of
TestOIDC_ValidRedirect mandates. The second part replays that full test
table against the model: non-loopback candidates never match across a
port or scheme difference, and the structural equality is up to
scheme and host case only. -/
theorem validRedirect_spec (uri : GoURL) (allowed : List GoURL) :
    (validRedirect uri allowed = true ↔
      ∃ a ∈ allowed,
        (if loopbackHosts.contains uri.host then
            specRedirectMatch (dropPort uri) (dropPort a)
          else specRedirectMatch uri a) = true) ∧
    (validRedirect ⟨"https", "example.com", none, "", ""⟩
        [⟨"https", "example.com", none, "", ""⟩] = true ∧
      validRedirect ⟨"https", "example.com", some 5000, "", ""⟩
        [⟨"", "", none, "a", ""⟩, ⟨"", "", none, "b", ""⟩,
          ⟨"https", "example.com", some 5000, "", ""⟩] = true ∧
      validRedirect ⟨"https", "example.com", none, "/a/b/c", ""⟩
        [⟨"", "", none, "a", ""⟩, ⟨"", "", none, "b", ""⟩,
          ⟨"https", "example.com", none, "/a/b/c", ""⟩] = true ∧
      validRedirect ⟨"https", "localhost", some 9000, "", ""⟩
        [⟨"", "", none, "a", ""⟩, ⟨"", "", none, "b", ""⟩,
          ⟨"https", "localhost", some 5000, "", ""⟩] = true ∧
      validRedirect ⟨"https", "127.0.0.1", some 9000, "", ""⟩
        [⟨"", "", none, "a", ""⟩, ⟨"", "", none, "b", ""⟩,
          ⟨"https", "127.0.0.1", some 5000, "", ""⟩] = true ∧
      validRedirect ⟨"https", "::1", some 9000, "", ""⟩
        [⟨"", "", none, "a", ""⟩, ⟨"", "", none, "b", ""⟩,
          ⟨"https", "::1", some 5000, "", ""⟩] = true ∧
      validRedirect ⟨"https", "::1", some 9000, "/x/y", "r=42"⟩
        [⟨"", "", none, "a", ""⟩, ⟨"", "", none, "b", ""⟩,
          ⟨"https", "::1", some 5000, "/x/y", "r=42"⟩] = true ∧
      validRedirect ⟨"https", "example.com", none, "", ""⟩ [] = false ∧
      validRedirect ⟨"http", "example.com", none, "", ""⟩
        [⟨"", "", none, "a", ""⟩, ⟨"", "", none, "b", ""⟩,
          ⟨"https", "example.com", none, "", ""⟩] = false ∧
      validRedirect ⟨"https", "example.com", some 9000, "", ""⟩
        [⟨"", "", none, "a", ""⟩, ⟨"", "", none, "b", ""⟩,
          ⟨"https", "example.com", some 5000, "", ""⟩] = false ∧
      validRedirect ⟨"https", "::2", some 9000, "", ""⟩
        [⟨"", "", none, "a", ""⟩, ⟨"", "", none, "b", ""⟩,
          ⟨"https", "::2", some 5000, "", ""⟩] = false ∧
      validRedirect ⟨"https", "localhost", some 5000, "", ""⟩
        [⟨"", "", none, "a", ""⟩, ⟨"", "", none, "b", ""⟩,
          ⟨"https", "127.0.0.1", some 5000, "", ""⟩] = false ∧
      validRedirect ⟨"https", "localhost", some 5000, "", ""⟩
        [⟨"", "", none, "a", ""⟩, ⟨"", "", none, "b", ""⟩,
          ⟨"http", "localhost", some 5000, "", ""⟩] = false ∧
      validRedirect ⟨"https", "::1", some 5000, "/x/y", "r=42"⟩
        [⟨"", "", none, "a", ""⟩, ⟨"", "", none, "b", ""⟩,
          ⟨"https", "::1", some 5000, "/x/y", "r=43"⟩] = false) := by
  constructor
  · cases h : loopbackHosts.contains uri.host
    · have hm : uri.host ∉ loopbackHosts := by simpa using h
      simp [validRedirect, h, hm, List.any_eq_true]
    · have hm : uri.host ∈ loopbackHosts := by simpa using h
      simp [validRedirect, h, hm, List.any_eq_true]
  · exact ⟨rfl, rfl, rfl, rfl, rfl, rfl, rfl, rfl, rfl, rfl, rfl, rfl, rfl, rfl⟩

/-- Counterexample to claim C3 as stated: the loopback candidate
localhost:9000 is accepted against an allow list whose only comparable
entry specifies port 5000, although no allow-list entry matches it under
the structural equality (with equal ports) that the claim asserts to be
equivalent to acceptance. -/
theorem validRedirect_port_counterexample :
    validRedirect ⟨"https", "localhost", some 9000, "", ""⟩
      [⟨"", "", none, "a", ""⟩, ⟨"", "", none, "b", ""⟩,
        ⟨"https", "localhost", some 5000, "", ""⟩] = true ∧
    specRedirectMatch ⟨"https", "localhost", some 9000, "", ""⟩
      ⟨"", "", none, "a", ""⟩ = false ∧
    specRedirectMatch ⟨"https", "localhost", some 9000, "", ""⟩
      ⟨"", "", none, "b", ""⟩ = false ∧
    specRedirectMatch ⟨"https", "localhost", some 9000, "", ""⟩
      ⟨"https", "localhost", some 5000, "", ""⟩ = false :=
  ⟨rfl, rfl, rfl, rfl⟩

end JwtAuth
